import Mathlib

/-!
# Verification of the ofborg CI pipeline against its specification

This file gives a shallow embedding, in Lean 4, of the parts of the
`ofborg` source code that the audited specification claims talk about,
and proves (or refutes) each claim against that embedding.

Conventions of the embedding:
* Rust `HashMap<K, V>` values are modelled as association lists
  `List (K × V)`; `HashSet` values as plain lists. The claims under
  study are about membership and disjointness, which are insensitive
  to iteration order and duplication.
* Rust `String` is Lean `String`; string algorithms that the code uses
  (`starts_with`, `to_ascii_lowercase`, sorting, consecutive `dedup`)
  are defined structurally over `String.data` so that every definition
  is executable and kernel-reducible.
* Byte strings (`Vec<u8>`, `&[u8]`) are `List Nat` (one `Nat` per byte).
* External effects (the AMQP broker, the GitHub API, the filesystem,
  HMAC-SHA256, JSON parsing) are either reified into result values
  (published messages, HTTP response codes, written status contexts)
  or abstracted as function parameters.
-/

namespace Ofborg

/-! ## Shared string helpers -/

/-- `Char`-level ASCII lowercasing: Rust's `u8::to_ascii_lowercase`,
applied characterwise (only `A`..`Z` are mapped). -/
def asciiLowerChar (c : Char) : Char :=
  if 65 ≤ c.toNat ∧ c.toNat ≤ 90 then Char.ofNat (c.toNat + 32) else c

/-- Rust's `str::to_ascii_lowercase`. -/
def asciiLower (s : String) : String :=
  ⟨s.data.map asciiLowerChar⟩

/-- Rust's `str::starts_with(pre)`, computed on the character lists. -/
def startsWithStr (pre s : String) : Bool :=
  pre.data.isPrefixOf s.data

/-- Lexicographic `≤` on character lists (by code point), Boolean-valued. -/
def leChars : List Char → List Char → Bool
  | [], _ => true
  | _ :: _, [] => false
  | a :: as, b :: bs =>
    if a = b then leChars as bs
    else decide (a.toNat < b.toNat)

/-- A total order on `String` used to model Rust's `Vec<String>::sort()`.
The claims below only use that sorting permutes its input, so the exact
order is irrelevant; this one is lexicographic by code point. -/
def strLe (a b : String) : Prop := leChars a.data b.data = true

instance : DecidableRel strLe := fun a b => by
  unfold strLe; infer_instance

/-- Rust's stable `Vec<String>::sort()`, modelled by insertion sort. -/
def sortStrings (l : List String) : List String :=
  l.insertionSort strLe

/-- Rust's `Vec::dedup()`: remove *consecutive* duplicates. -/
def dedupConsec : List String → List String
  | [] => []
  | [a] => [a]
  | a :: b :: rest =>
    if a = b then dedupConsec (b :: rest)
    else a :: dedupConsec (b :: rest)

theorem mem_dedupConsec {a : String} : ∀ {l : List String}, a ∈ l → a ∈ dedupConsec l := by
  intro l
  induction l with
  | nil => intro h; exact absurd h (List.not_mem_nil a)
  | cons x rest ih =>
    intro hmem
    match rest, ih with
    | [], _ => simpa [dedupConsec] using hmem
    | y :: rest', ih =>
      rcases List.mem_cons.mp hmem with rfl | htail
      · by_cases hxy : a = y
        · subst hxy
          simp only [dedupConsec, if_pos rfl]
          exact ih (List.mem_cons_self a rest')
        · simp only [dedupConsec, if_neg hxy]
          exact List.mem_cons_self a _
      · by_cases hxy : x = y
        · simp only [dedupConsec, if_pos hxy]
          exact ih htail
        · simp only [dedupConsec, if_neg hxy]
          exact List.mem_cons_of_mem x (ih htail)

theorem mem_sortStrings {a : String} {l : List String} : a ∈ sortStrings l ↔ a ∈ l :=
  (List.perm_insertionSort strLe l).mem_iff

/-! ## `src/ofborg/src/outpathdiff.rs` — the package-output diff engine -/

/-- `PackageArch`: a (package attribute path, architecture) pair
(`outpathdiff.rs` lines 92–98). -/
structure PackageArch where
  package : String
  architecture : String
deriving DecidableEq, Repr

/-- `PackageOutPaths = HashMap<PackageArch, OutPath>`, as an association
list. -/
def PackageOutPaths := List (PackageArch × String)

instance : DecidableEq PackageOutPaths := by
  unfold PackageOutPaths; infer_instance

/-- `HashMap::keys`. -/
def PackageOutPaths.keys (m : PackageOutPaths) : List PackageArch :=
  m.map Prod.fst

/-- `HashMap::get`: first binding of the key, if any. -/
def PackageOutPaths.get (m : PackageOutPaths) (k : PackageArch) : Option String :=
  (m.find? (fun p => p.1 = k)).map Prod.snd

/-- The `OutPathDiff` state: `original` (before) and `current` (after)
evaluation results (`outpathdiff.rs` lines 10–14). -/
structure OutPathDiff where
  original : Option PackageOutPaths
  current : Option PackageOutPaths

/-- `OutPathDiff::package_diff` (`outpathdiff.rs` lines 40–61): when both
maps are present, returns `(removed, added)` where `removed` is the set
difference of key sets `orig \ cur` and `added` is `cur \ orig`. -/
def OutPathDiff.packageDiff (d : OutPathDiff) :
    Option (List PackageArch × List PackageArch) :=
  match d.current with
  | none => none
  | some cur =>
    match d.original with
    | none => none
    | some orig =>
      let removed := orig.keys.filter (fun k => ¬ k ∈ cur.keys)
      let added := cur.keys.filter (fun k => ¬ k ∈ orig.keys)
      some (removed, added)

/-- `OutPathDiff::calculate_rebuild` (`outpathdiff.rs` lines 63–83): when
both maps are present, every key of `current` whose looked-up value
(`cur.get(key)`, an `Option`) differs from `orig.get(key)` is pushed onto
the rebuild list. -/
def OutPathDiff.calculateRebuild (d : OutPathDiff) : Option (List PackageArch) :=
  match d.current with
  | none => none
  | some cur =>
    match d.original with
    | none => none
    | some orig =>
      some (cur.keys.filter (fun k => cur.get k ≠ orig.get k))

theorem get_isSome_iff (m : PackageOutPaths) (k : PackageArch) :
    (m.get k).isSome ↔ k ∈ m.keys := by
  unfold PackageOutPaths.get PackageOutPaths.keys
  rw [Option.isSome_map']
  rw [List.find?_isSome]
  constructor
  · rintro ⟨x, hx, hpx⟩
    exact List.mem_map.mpr ⟨x, hx, of_decide_eq_true hpx⟩
  · intro h
    rcases List.mem_map.mp h with ⟨x, hx, hfst⟩
    exact ⟨x, hx, decide_eq_true hfst⟩

theorem get_eq_none_of_not_mem {m : PackageOutPaths} {k : PackageArch}
    (h : k ∉ m.keys) : m.get k = none := by
  by_contra hne
  exact h ((get_isSome_iff m k).mp (Option.ne_none_iff_isSome.mp hne))

/-- C1 (amended): for every pair of maps held by an `OutPathDiff`, the
`removed` and `added` sets are disjoint, `rebuild` is disjoint from
`removed`, and every key present in `after` but absent from `before`
appears in the rebuild list (so `rebuild ∩ added = added`, not `∅`). -/
theorem outPathDiff_sets (orig cur : PackageOutPaths)
    (removed added rebuild : List PackageArch)
    (hdiff : (OutPathDiff.mk (some orig) (some cur)).packageDiff = some (removed, added))
    (hreb : (OutPathDiff.mk (some orig) (some cur)).calculateRebuild = some rebuild) :
    (∀ k, k ∈ rebuild → k ∉ removed) ∧
    (∀ k, k ∈ added → k ∉ removed) ∧
    (∀ k, k ∈ added → k ∈ rebuild) := by
  simp only [OutPathDiff.packageDiff, Option.some.injEq, Prod.mk.injEq] at hdiff
  simp only [OutPathDiff.calculateRebuild, Option.some.injEq] at hreb
  obtain ⟨hrem, hadd⟩ := hdiff
  subst hrem hadd hreb
  refine ⟨?_, ?_, ?_⟩
  · intro k hk hkrem
    have hkcur : k ∈ cur.keys := (List.mem_filter.mp hk).1
    have : ¬ k ∈ cur.keys := by
      have := (List.mem_filter.mp hkrem).2
      simpa using this
    exact this hkcur
  · intro k hk hkrem
    have hkorig : ¬ k ∈ orig.keys := by
      have := (List.mem_filter.mp hk).2
      simpa using this
    exact hkorig (List.mem_filter.mp hkrem).1
  · intro k hk
    have hkcur : k ∈ cur.keys := (List.mem_filter.mp hk).1
    have hkorig : ¬ k ∈ orig.keys := by
      have := (List.mem_filter.mp hk).2
      simpa using this
    refine List.mem_filter.mpr ⟨hkcur, ?_⟩
    have hnone : orig.get k = none := get_eq_none_of_not_mem hkorig
    have hsome : (cur.get k).isSome := (get_isSome_iff cur k).mpr hkcur
    simp only [decide_eq_true_eq]
    intro hcontra
    rw [hcontra, hnone] at hsome
    exact Bool.noConfusion hsome

/-- C1 witness: at `before = ∅`, `after = {hello.x86_64-linux ↦ out}`, the
hypotheses of `outPathDiff_sets` hold and the added key is in the rebuild
list. -/
theorem outPathDiff_sets_witness :
    (OutPathDiff.mk (some []) (some [(⟨"hello", "x86_64-linux"⟩, "out")])).packageDiff
        = some ([], [⟨"hello", "x86_64-linux"⟩]) ∧
    (OutPathDiff.mk (some []) (some [(⟨"hello", "x86_64-linux"⟩, "out")])).calculateRebuild
        = some [⟨"hello", "x86_64-linux"⟩] ∧
    (⟨"hello", "x86_64-linux"⟩ : PackageArch) ∈
      ([⟨"hello", "x86_64-linux"⟩] : List PackageArch) :=
  ⟨by decide, by decide,
    (outPathDiff_sets [] [(⟨"hello", "x86_64-linux"⟩, "out")]
        [] [⟨"hello", "x86_64-linux"⟩] [⟨"hello", "x86_64-linux"⟩]
        (by decide) (by decide)).2.2 _ (by decide)⟩

/-- C1 counterexample: with `before = ∅` and
`after = {hello.x86_64-linux ↦ /nix/store/abc}`, the key is `added`
(present in `after`, absent from `before`) yet also appears in the
rebuild list, so `rebuild ∩ (added ∪ removed) ≠ ∅`. -/
theorem rebuild_meets_added_counterexample :
    (OutPathDiff.mk (some [])
        (some [(⟨"hello", "x86_64-linux"⟩, "/nix/store/abc")])).packageDiff
      = some ([], [⟨"hello", "x86_64-linux"⟩]) ∧
    (OutPathDiff.mk (some [])
        (some [(⟨"hello", "x86_64-linux"⟩, "/nix/store/abc")])).calculateRebuild
      = some [⟨"hello", "x86_64-linux"⟩] ∧
    ¬ (([⟨"hello", "x86_64-linux"⟩] : List PackageArch).Disjoint
        [⟨"hello", "x86_64-linux"⟩]) := by
  refine ⟨by decide, by decide, ?_⟩
  intro hdisj
  exact hdisj (List.mem_cons_self _ _) (List.mem_cons_self _ _)

/-! ## Message types (`ofborg::message`)

The `message` module itself is not among the provided sources; the field
shapes below are read off their construction sites
(`tasks/evaluationfilter.rs` lines 75–91, `tasks/eval/nixpkgs.rs` lines
88–96) and §3 of the specification. -/

/-- `message::Repo`. -/
structure Repo where
  owner : String
  name : String
  full_name : String
  clone_url : String
deriving DecidableEq, Repr

/-- `message::Pr`. -/
structure Pr where
  number : Nat
  head_sha : String
  target_branch : Option String
deriving DecidableEq, Repr

/-- `commentparser::Subset` (package-set variant selector). -/
inductive Subset
  | nixpkgs
  | nixos
deriving DecidableEq, Repr

/-- `message::buildjob::BuildJob` as constructed by `BuildJob::new(repo,
pr, subset, attrs, logs, statusreport, request_id)`. -/
structure BuildJob where
  repo : Repo
  pr : Pr
  subset : Subset
  attrs : List String
  logs : Option (Option String × Option String)
  statusreport : Option (Option String × Option String)
  request_id : String
deriving DecidableEq, Repr

/-! ## `src/ofborg/src/tasks/eval/nixpkgs.rs` — auto-scheduled builds -/

/-- The attrs list built by `NixpkgsStrategy::queue_builds`
(`nixpkgs.rs` lines 76–81): each touched package `pkg` contributes
`pkg` and `pkg.passthru.tests`; the list is then sorted and its
consecutive duplicates removed (`Vec::sort` + `Vec::dedup`). -/
def tryBuild (touched : List String) : List String :=
  dedupConsec (sortStrings
    (touched.flatMap (fun pkg => [pkg, pkg ++ ".passthru.tests"])))

/-- `NixpkgsStrategy::queue_builds` (`nixpkgs.rs` lines 74–103): one
`BuildJob` when the attrs list is non-empty and has at most 20 entries,
none otherwise (and none when no touched packages were recorded). The
fresh UUID is passed in as `requestId`. -/
def queueBuilds (repo : Repo) (pr : Pr) (requestId : String)
    (touchedPackages : Option (List String)) : List BuildJob :=
  match touchedPackages with
  | some pkgs =>
    let tryB := tryBuild pkgs
    if ¬ tryB.isEmpty ∧ tryB.length ≤ 20 then
      [⟨repo, pr, Subset.nixpkgs, tryB, none, none, requestId⟩]
    else []
  | none => []

theorem mem_tryBuild {pkg : String} {touched : List String} (h : pkg ∈ touched) :
    pkg ∈ tryBuild touched ∧ (pkg ++ ".passthru.tests") ∈ tryBuild touched := by
  constructor
  · exact mem_dedupConsec (mem_sortStrings.mpr
      (List.mem_flatMap.mpr ⟨pkg, h, List.mem_cons_self _ _⟩))
  · exact mem_dedupConsec (mem_sortStrings.mpr
      (List.mem_flatMap.mpr ⟨pkg, h, List.mem_cons_of_mem _ (List.mem_cons_self _ _)⟩))

/-- C2 (amended): the 1..=20 guard is applied to the deduplicated,
sorted *attrs list* — which carries `pkg` and `pkg.passthru.tests` for
each touched package, so two entries per package — not to the touched
packages themselves. When that attrs list has between 1 and 20 entries,
`queue_builds` emits exactly one `BuildJob` with exactly those attrs;
when it is empty or exceeds 20 entries (in particular whenever more
than 10 distinct packages are touched), no build job is emitted. -/
theorem queue_builds_spec (repo : Repo) (pr : Pr) (requestId : String)
    (pkgs : List String) :
    (1 ≤ (tryBuild pkgs).length → (tryBuild pkgs).length ≤ 20 →
      queueBuilds repo pr requestId (some pkgs)
          = [⟨repo, pr, Subset.nixpkgs, tryBuild pkgs, none, none, requestId⟩] ∧
        ∀ pkg, pkg ∈ pkgs →
          pkg ∈ tryBuild pkgs ∧ (pkg ++ ".passthru.tests") ∈ tryBuild pkgs) ∧
    ((tryBuild pkgs).length = 0 ∨ 20 < (tryBuild pkgs).length →
      queueBuilds repo pr requestId (some pkgs) = []) := by
  have hred : queueBuilds repo pr requestId (some pkgs)
      = if ¬ (tryBuild pkgs).isEmpty ∧ (tryBuild pkgs).length ≤ 20 then
          [⟨repo, pr, Subset.nixpkgs, tryBuild pkgs, none, none, requestId⟩]
        else [] := rfl
  constructor
  · intro h1 h20
    have hne : ¬ (tryBuild pkgs).isEmpty := by
      intro hcontra
      rw [List.isEmpty_iff_length_eq_zero] at hcontra
      omega
    refine ⟨by rw [hred, if_pos ⟨hne, h20⟩], ?_⟩
    intro pkg hmem
    exact mem_tryBuild hmem
  · intro h
    rw [hred, if_neg]
    rintro ⟨hne, h20⟩
    rcases h with h0 | hgt
    · exact hne (List.isEmpty_iff_length_eq_zero.mpr h0)
    · omega

/-- C2 witness: one touched package `"foo"` yields exactly one job with
attrs `["foo", "foo.passthru.tests"]`; 21 single-character packages make
the attrs list exceed 20 entries, so no job is emitted. -/
theorem queue_builds_spec_witness :
    queueBuilds ⟨"NixOS", "nixpkgs", "NixOS/nixpkgs", "c"⟩ ⟨1, "s", none⟩ "id"
        (some ["foo"])
      = [⟨⟨"NixOS", "nixpkgs", "NixOS/nixpkgs", "c"⟩, ⟨1, "s", none⟩,
          Subset.nixpkgs, ["foo", "foo.passthru.tests"], none, none, "id"⟩] ∧
    queueBuilds ⟨"NixOS", "nixpkgs", "NixOS/nixpkgs", "c"⟩ ⟨1, "s", none⟩ "id"
        (some ["a", "b", "c", "d", "e", "f", "g", "h", "i", "j", "k"])
      = [] :=
  ⟨by
    have h := (queue_builds_spec ⟨"NixOS", "nixpkgs", "NixOS/nixpkgs", "c"⟩
      ⟨1, "s", none⟩ "id" ["foo"]).1 (by decide) (by decide)
    rw [h.1]
    decide,
   (queue_builds_spec ⟨"NixOS", "nixpkgs", "NixOS/nixpkgs", "c"⟩
      ⟨1, "s", none⟩ "id" ["a", "b", "c", "d", "e", "f", "g", "h", "i", "j", "k"]).2
      (by right; decide)⟩

/-- C2 counterexample: eleven distinct touched packages. Their
deduplicated, sorted list has 11 entries — between 1 and 20 — so the
claim asserts exactly one `BuildJob`; but the attrs list carries two
entries per package (22 > 20), and `queue_builds` emits nothing. -/
theorem queue_builds_touched_guard_counterexample :
    (dedupConsec (sortStrings
        ["pkga", "pkgb", "pkgc", "pkgd", "pkge", "pkgf",
         "pkgg", "pkgh", "pkgi", "pkgj", "pkgk"])).length = 11 ∧
    (1 ≤ 11 ∧ 11 ≤ 20) ∧
    queueBuilds ⟨"NixOS", "nixpkgs", "NixOS/nixpkgs", "c"⟩ ⟨7, "s", none⟩ "rid"
        (some ["pkga", "pkgb", "pkgc", "pkgd", "pkge", "pkgf",
               "pkgg", "pkgh", "pkgi", "pkgj", "pkgk"])
      = [] := by
  refine ⟨?_, ⟨by decide, by decide⟩, ?_⟩ <;> decide

/-! ## `src/ofborg/src/tasks/evaluate.rs` — status contexts and prefixes

The GitHub commit-status store for one `head_sha` is reified as the list
of context strings already present; creating a status appends its
context. `get_prefix` (lines 611–623) consults that list; the evaluation
job writes statuses through the captured `overall_status` context and
per-check contexts (lines 310–317 and 414–420), and through
`OneEval::update_status`, which re-reads the prefix (line 168). -/

/-- `get_prefix` (`evaluate.rs` lines 611–623): `"grahamcofborg"` if any
existing status context on the sha starts with `"grahamcofborg-"`,
otherwise `"ofborg"`. -/
def getPrefix (statuses : List String) : String :=
  if statuses.any (fun s => startsWithStr "grahamcofborg-" s) then
    "grahamcofborg"
  else
    "ofborg"

/-- The three forms of commit-status write an evaluation job performs:
the overall `<prefix>-eval` status (context captured once at job start),
a per-check `<prefix>-eval-<name>` status, and `update_status`, which
recomputes `get_prefix` against the current statuses. -/
inductive StatusWrite
  | overall
  | check (name : String)
  | update

/-- The context string a given write uses: `p0` is the prefix captured at
job start (`evaluate.rs` line 310), `statuses` the statuses present at
the moment of the write (consulted only by `update_status`). -/
def writeContext (p0 : String) (statuses : List String) : StatusWrite → String
  | .overall => p0 ++ "-eval"
  | .check c => p0 ++ ("-eval-" ++ c)
  | .update => getPrefix statuses ++ "-eval"

/-- Run a sequence of status writes, threading the status store, and
collect the context strings written. -/
def runJobAux (p0 : String) : List String → List StatusWrite → List String
  | _, [] => []
  | statuses, w :: ws =>
    let ctx := writeContext p0 statuses w
    ctx :: runJobAux p0 (statuses ++ [ctx]) ws

/-- All contexts written during one evaluation job that starts against
the statuses `s0` and performs the writes `ws`. -/
def jobContexts (s0 : List String) (ws : List StatusWrite) : List String :=
  runJobAux (getPrefix s0) s0 ws

theorem isPrefixOf_false_of_head_ne {a b : Char} (as bs : List Char) (h : a ≠ b) :
    List.isPrefixOf (a :: as) (b :: bs) = false := by
  simp [List.isPrefixOf, h]

theorem graham_not_prefix (t : String) :
    startsWithStr "grahamcofborg-" ("ofborg" ++ t) = false := by
  unfold startsWithStr
  rw [String.data_append]
  exact isPrefixOf_false_of_head_ne _ _ (by decide)

theorem getPrefix_of_any_false {s : List String}
    (h : s.any (fun t => startsWithStr "grahamcofborg-" t) = false) :
    getPrefix s = "ofborg" := by
  unfold getPrefix
  rw [h]
  rfl

theorem getPrefix_write_stable {s : List String} {p0 : String}
    (hp : getPrefix s = p0) (w : StatusWrite) :
    getPrefix (s ++ [writeContext p0 s w]) = p0 := by
  by_cases h : s.any (fun t => startsWithStr "grahamcofborg-" t)
  · have hgp : getPrefix s = "grahamcofborg" := by unfold getPrefix; rw [if_pos h]
    have : (s ++ [writeContext p0 s w]).any
        (fun t => startsWithStr "grahamcofborg-" t) = true := by
      rw [List.any_append]
      simp [h]
    unfold getPrefix
    rw [if_pos this]
    rw [← hp, hgp]
  · have hfalse : s.any (fun t => startsWithStr "grahamcofborg-" t) = false :=
      Bool.eq_false_iff.mpr h
    have hofborg : p0 = "ofborg" := by rw [← hp]; exact getPrefix_of_any_false hfalse
    subst hofborg
    have hctx : startsWithStr "grahamcofborg-" (writeContext "ofborg" s w) = false := by
      cases w with
      | overall => exact graham_not_prefix "-eval"
      | check c => exact graham_not_prefix ("-eval-" ++ c)
      | update =>
        show startsWithStr "grahamcofborg-" (getPrefix s ++ "-eval") = false
        rw [getPrefix_of_any_false hfalse]
        exact graham_not_prefix "-eval"
    have : (s ++ [writeContext "ofborg" s w]).any
        (fun t => startsWithStr "grahamcofborg-" t) = false := by
      rw [List.any_append]
      simp [hfalse, hctx]
    exact getPrefix_of_any_false this

theorem runJobAux_contexts {p0 : String} :
    ∀ (ws : List StatusWrite) (s : List String), getPrefix s = p0 →
      ∀ ctx, ctx ∈ runJobAux p0 s ws →
        ctx = p0 ++ "-eval" ∨
        ∃ c, StatusWrite.check c ∈ ws ∧ ctx = p0 ++ ("-eval-" ++ c) := by
  intro ws
  induction ws with
  | nil =>
    intro s _ ctx hctx
    exact absurd hctx (List.not_mem_nil ctx)
  | cons w ws ih =>
    intro s hp ctx hctx
    rcases List.mem_cons.mp hctx with hhead | htail
    · subst hhead
      cases w with
      | overall => exact Or.inl rfl
      | check c => exact Or.inr ⟨c, List.mem_cons_self _ _, rfl⟩
      | update =>
        left
        show getPrefix s ++ "-eval" = p0 ++ "-eval"
        rw [hp]
    · have hstable := getPrefix_write_stable hp w
      rcases ih (s ++ [writeContext p0 s w]) hstable ctx htail with hoverall | ⟨c, hc, heq⟩
      · exact Or.inl hoverall
      · exact Or.inr ⟨c, List.mem_cons_of_mem _ hc, heq⟩

/-- C3: during one evaluation job every commit-status context written is
either `<prefix>-eval` or `<prefix>-eval-<check>`, where the prefix is
the one `get_prefix` chooses against the statuses present at job start
(`"grahamcofborg"` if any existing context starts with
`"grahamcofborg-"`, else `"ofborg"`), and that single prefix is used by
every write of the job, including the `update_status` writes that
re-read the store. -/
theorem eval_status_context_invariant (s0 : List String) (ws : List StatusWrite) :
    (getPrefix s0 =
      if s0.any (fun s => startsWithStr "grahamcofborg-" s) then "grahamcofborg"
      else "ofborg") ∧
    ∀ ctx, ctx ∈ jobContexts s0 ws →
      ctx = getPrefix s0 ++ "-eval" ∨
      ∃ c, StatusWrite.check c ∈ ws ∧ ctx = getPrefix s0 ++ ("-eval-" ++ c) :=
  ⟨rfl, fun ctx hctx => runJobAux_contexts ws s0 rfl ctx hctx⟩

/-- C3 witness: a job over an empty status store, with an overall write,
a check write and an `update_status` write, writes only
`ofborg-eval`/`ofborg-eval-package-list-no-aliases` contexts. -/
theorem eval_status_context_invariant_witness :
    jobContexts [] [StatusWrite.overall,
        StatusWrite.check "package-list-no-aliases", StatusWrite.update]
      = ["ofborg-eval", "ofborg-eval-package-list-no-aliases", "ofborg-eval"] ∧
    ("ofborg-eval" = getPrefix [] ++ "-eval" ∨
      ∃ c, StatusWrite.check c ∈ [StatusWrite.overall,
          StatusWrite.check "package-list-no-aliases", StatusWrite.update] ∧
        "ofborg-eval" = getPrefix [] ++ ("-eval-" ++ c)) :=
  ⟨by decide,
   (eval_status_context_invariant []
      [StatusWrite.overall, StatusWrite.check "package-list-no-aliases",
       StatusWrite.update]).2 "ofborg-eval" (by decide)⟩

/-! ## `src/ofborg/src/bin/github-webhook-receiver.rs` — webhook ingress

The HTTP handler (lines 113–203) is embedded as a pure function from the
request to `(status code, at most one published message)`. HMAC-SHA256
and the JSON extraction of `repository.full_name` are abstracted as
function parameters; body reading never fails in the model (the code's
only 5xx paths are a body read error and HMAC key setup, and
HMAC-SHA256 accepts keys of any length). `to_lowercase` is modelled by
ASCII lowercasing. -/

/-- Byte strings (`Vec<u8>` / `&[u8]`), one `Nat` per byte. -/
abbrev Bytes := List Nat

inductive HttpMethod
  | get
  | post
  | other
deriving DecidableEq, Repr

structure WebhookRequest where
  method : HttpMethod
  xHubSignature256 : Option String
  xGithubEvent : Option String
  body : Bytes
deriving DecidableEq, Repr

/-- A message published to the broker, with the fields
`basic_publish` sets (lines 191–199). -/
structure PublishedMessage where
  exchange : String
  routingKey : String
  contentType : String
  deliveryMode : Nat
  body : Bytes
deriving DecidableEq, Repr

structure HandlerResult where
  status : Nat
  published : Option PublishedMessage
deriving DecidableEq, Repr

/-- Split a character list at the first `'='`, returning the pieces
before and after it. -/
def breakAtEq : List Char → Option (List Char × List Char)
  | [] => none
  | c :: rest =>
    if c = '=' then some ([], rest)
    else (breakAtEq rest).map (fun p => (c :: p.1, p.2))

/-- Rust's `sig.splitn(2, '=')` as consumed by the handler (lines
137–147): the first `next()` always succeeds; the second succeeds iff the
string contains `'='`, in which case the remainder is left unsplit. -/
def splitn2Eq (s : String) : Option (String × String) :=
  (breakAtEq s.data).map (fun p => (⟨p.1⟩, ⟨p.2⟩))

def hexDigitVal (c : Char) : Option Nat :=
  if '0' ≤ c ∧ c ≤ '9' then some (c.toNat - 48)
  else if 'a' ≤ c ∧ c ≤ 'f' then some (c.toNat - 87)
  else if 'A' ≤ c ∧ c ≤ 'F' then some (c.toNat - 55)
  else none

def hexDecodeChars : List Char → Option Bytes
  | [] => some []
  | [_] => none
  | hi :: lo :: rest =>
    match hexDigitVal hi, hexDigitVal lo, hexDecodeChars rest with
    | some h, some l, some bs => some ((16 * h + l) :: bs)
    | _, _, _ => none

/-- `hex::decode`: even-length hex string to bytes. -/
def hexDecode (s : String) : Option Bytes :=
  hexDecodeChars s.data

/-- The webhook request handler (lines 113–203). `hmac secret body` is
the HMAC-SHA256 digest; `parseFullName body` is the JSON extraction of
`repository.full_name` (`GenericWebhook`). Checks are performed in the
code's order: method, signature header present, `'='` present, hex
decode, algorithm name, digest comparison, JSON parse, event header. -/
def handleWebhook (hmac : Bytes → Bytes → Bytes)
    (parseFullName : Bytes → Option String)
    (secret : Bytes) (req : WebhookRequest) : HandlerResult :=
  if req.method ≠ HttpMethod.post then ⟨405, none⟩
  else
    match req.xHubSignature256 with
    | none => ⟨400, none⟩
    | some sig =>
      match splitn2Eq sig with
      | none => ⟨400, none⟩
      | some (algo, hashHex) =>
        match hexDecode hashHex with
        | none => ⟨400, none⟩
        | some hash =>
          if algo ≠ "sha256" then ⟨400, none⟩
          else if hash ≠ hmac secret req.body then ⟨400, none⟩
          else
            match parseFullName req.body with
            | none => ⟨400, none⟩
            | some fullName =>
              match req.xGithubEvent with
              | none => ⟨400, none⟩
              | some eventType =>
                ⟨204, some ⟨"github-events",
                    eventType ++ ("." ++ asciiLower fullName),
                    "application/json", 2, req.body⟩⟩

/-- C4: a POST whose signature verifies, whose body yields a repository
`full_name`, and which carries an event header, publishes the raw body
byte for byte to `github-events` with routing key
`<event>.<full_name lowercased>`, content-type `application/json`,
delivery-mode 2, and answers 204. -/
theorem webhook_happy_path (hmac : Bytes → Bytes → Bytes)
    (parseFullName : Bytes → Option String) (secret : Bytes)
    (req : WebhookRequest) (sig hashHex fullName event : String)
    (hmethod : req.method = HttpMethod.post)
    (hsig : req.xHubSignature256 = some sig)
    (hsplit : splitn2Eq sig = some ("sha256", hashHex))
    (hhex : hexDecode hashHex = some (hmac secret req.body))
    (hparse : parseFullName req.body = some fullName)
    (hevent : req.xGithubEvent = some event) :
    handleWebhook hmac parseFullName secret req =
      ⟨204, some ⟨"github-events", event ++ ("." ++ asciiLower fullName),
        "application/json", 2, req.body⟩⟩ := by
  unfold handleWebhook
  rw [hmethod, hsig]
  dsimp only
  rw [hsplit]
  dsimp only
  rw [hhex]
  dsimp only
  rw [hparse]
  simp only [ne_eq, not_true_eq_false, if_false, reduceIte]
  rw [hevent]

/-- C4 witness: a concrete POST with matching digest publishes its body
with routing key `pull_request.nixos/nixpkgs` and answers 204. -/
theorem webhook_happy_path_witness :
    handleWebhook (fun _ _ => [1, 2]) (fun _ => some "NixOS/nixpkgs") []
        ⟨HttpMethod.post, some "sha256=0102", some "pull_request", [123, 125]⟩ =
      ⟨204, some ⟨"github-events", "pull_request" ++ ("." ++ asciiLower "NixOS/nixpkgs"),
        "application/json", 2, [123, 125]⟩⟩ :=
  webhook_happy_path (fun _ _ => [1, 2]) (fun _ => some "NixOS/nixpkgs") []
    ⟨HttpMethod.post, some "sha256=0102", some "pull_request", [123, 125]⟩
    "sha256=0102" "0102" "NixOS/nixpkgs" "pull_request"
    rfl rfl (by decide) (by decide) rfl rfl

/-- C5: a POST whose `X-Hub-Signature-256` header is absent, lacks an
`'='`, carries non-hex after the `'='`, names an algorithm other than
`sha256`, or carries a digest different from the body's HMAC-SHA256,
answers 400 and publishes nothing. -/
theorem webhook_rejects_bad_signature (hmac : Bytes → Bytes → Bytes)
    (parseFullName : Bytes → Option String) (secret : Bytes)
    (req : WebhookRequest)
    (hmethod : req.method = HttpMethod.post)
    (hbad : req.xHubSignature256 = none ∨
      ∃ sig, req.xHubSignature256 = some sig ∧
        (splitn2Eq sig = none ∨
          ∃ algo hashHex, splitn2Eq sig = some (algo, hashHex) ∧
            (hexDecode hashHex = none ∨ algo ≠ "sha256" ∨
              ∃ hash, hexDecode hashHex = some hash ∧
                hash ≠ hmac secret req.body))) :
    handleWebhook hmac parseFullName secret req = ⟨400, none⟩ := by
  unfold handleWebhook
  rw [hmethod]
  simp only [ne_eq, not_true_eq_false, if_false, ite_false, reduceIte]
  rcases hbad with hnone | ⟨sig, hsig, hrest⟩
  · rw [hnone]
  · rw [hsig]
    dsimp only
    rcases hrest with hsplitnone | ⟨algo, hashHex, hsplit, hrest⟩
    · rw [hsplitnone]
    · rw [hsplit]
      dsimp only
      rcases hrest with hhexnone | halgo | ⟨hash, hhex, hneq⟩
      · rw [hhexnone]
      · cases hhex : hexDecode hashHex with
        | none => rfl
        | some hash => simp [halgo]
      · rw [hhex]
        by_cases halgo : algo = "sha256"
        · simp [halgo, hneq]
        · simp [halgo]

/-- C5 witness: signature `sha1=00` (wrong algorithm) on a POST yields
400 and no publish. -/
theorem webhook_rejects_bad_signature_witness :
    handleWebhook (fun _ _ => [0]) (fun _ => some "NixOS/nixpkgs") []
        ⟨HttpMethod.post, some "sha1=00", some "pull_request", [123]⟩ = ⟨400, none⟩ :=
  webhook_rejects_bad_signature (fun _ _ => [0]) (fun _ => some "NixOS/nixpkgs") []
    ⟨HttpMethod.post, some "sha1=00", some "pull_request", [123]⟩ rfl
    (Or.inr ⟨"sha1=00", rfl, Or.inr ⟨"sha1", "00", by decide,
      Or.inr (Or.inl (by decide))⟩⟩)

/-! ## `src/ofborg/src/ghevent` and `src/ofborg/src/worker.rs` -/

/-- `ghevent::User` (`common.rs`). -/
structure GhUser where
  login : String
deriving DecidableEq, Repr

/-- `ghevent::Repository` (`common.rs`). -/
structure GhRepository where
  owner : GhUser
  name : String
  full_name : String
  clone_url : String
deriving DecidableEq, Repr

/-- `ghevent::PullRequestState` (`pullrequestevent.rs`). -/
inductive PullRequestState
  | opened
  | closed
deriving DecidableEq, Repr

/-- `ghevent::PullRequestAction` (`pullrequestevent.rs`); `unknown` is
the `#[serde(other)]` catch-all. -/
inductive PullRequestAction
  | edited
  | opened
  | reopened
  | synchronize
  | unknown
deriving DecidableEq, Repr

/-- `ghevent::ChangeWas` (`pullrequestevent.rs`). -/
structure ChangeWas where
  fromVal : String
deriving DecidableEq, Repr

/-- `ghevent::BaseChange` (`pullrequestevent.rs`). -/
structure BaseChange where
  git_ref : ChangeWas
  sha : ChangeWas
deriving DecidableEq, Repr

/-- `ghevent::PullRequestChanges` (`pullrequestevent.rs`). -/
structure PullRequestChanges where
  base : Option BaseChange
deriving DecidableEq, Repr

/-- `ghevent::PullRequestRef` (`pullrequestevent.rs`). -/
structure PullRequestRef where
  git_ref : String
  sha : String
deriving DecidableEq, Repr

/-- `ghevent::PullRequest` (`pullrequestevent.rs`). -/
structure GhPullRequest where
  state : PullRequestState
  base : PullRequestRef
  head : PullRequestRef
deriving DecidableEq, Repr

/-- `ghevent::PullRequestEvent` (`pullrequestevent.rs`). -/
structure PullRequestEvent where
  action : PullRequestAction
  number : Nat
  repository : GhRepository
  pull_request : GhPullRequest
  changes : Option PullRequestChanges
deriving DecidableEq, Repr

/-- `message::evaluationjob::EvaluationJob`. -/
structure EvaluationJob where
  repo : Repo
  pr : Pr
deriving DecidableEq, Repr

/-- `worker::QueueMsg` (`worker.rs` lines 17–25), polymorphic in the
payload: serialization to bytes is left abstract, the payload is carried
as a value. -/
structure QueueMsg (μ : Type) where
  exchange : Option String
  routing_key : Option String
  mandatory : Bool
  immediate : Bool
  content_type : Option String
  content : μ
deriving DecidableEq, Repr

/-- `worker::Action` (`worker.rs` lines 9–15). -/
inductive WorkerAction (μ : Type)
  | ack
  | nackRequeue
  | nackDump
  | publish (msg : QueueMsg μ)
deriving DecidableEq, Repr

/-- `worker::publish_serde_action` (`worker.rs` lines 27–40). -/
def publishSerdeAction {μ : Type} (exchange routing_key : Option String)
    (msg : μ) : WorkerAction μ :=
  WorkerAction.publish ⟨exchange, routing_key, false, false,
    some "application/json", msg⟩

/-! ## `src/ofborg/src/tasks/evaluationfilter.rs` — admission control -/

/-- The `EvaluationJob` the filter builds from a surviving event
(`evaluationfilter.rs` lines 75–91). -/
def toEvaluationJob (job : PullRequestEvent) : EvaluationJob :=
  ⟨⟨job.repository.owner.login, job.repository.name,
    job.repository.full_name, job.repository.clone_url⟩,
   ⟨job.number, job.pull_request.head.sha,
    some job.pull_request.base.git_ref⟩⟩

/-- `EvaluationFilterWorker::consumer` (`evaluationfilter.rs` lines
31–97). `isRepoEligible` abstracts `acl::Acl::is_repo_eligible` (the
`acl` module is not among the provided sources; per §3 of the spec it
answers repo-set membership). -/
def evaluationFilterConsumer (isRepoEligible : String → Bool)
    (job : PullRequestEvent) : List (WorkerAction EvaluationJob) :=
  if ¬ isRepoEligible job.repository.full_name then [WorkerAction.ack]
  else if job.pull_request.state ≠ PullRequestState.opened then [WorkerAction.ack]
  else
    let interesting : Bool :=
      match job.action with
      | .opened => true
      | .synchronize => true
      | .reopened => true
      | .edited =>
        match job.changes with
        | some changes => changes.base.isSome
        | none => false
      | .unknown => false
    if ¬ interesting then [WorkerAction.ack]
    else
      [publishSerdeAction none (some "mass-rebuild-check-jobs") (toEvaluationJob job),
       WorkerAction.ack]

/-- C6: events from ineligible repos, non-open PRs, and uninteresting
actions (anything but Opened/Synchronize/Reopened/Edited-with-base)
yield exactly `[Ack]`; surviving events yield exactly one publish of the
`EvaluationJob` to queue `mass-rebuild-check-jobs` followed by `Ack`.
Edited with `changes` absent (or `changes.base` absent) is in the first
group, as is any other action — the unknown catch-all acks regardless
of what `changes` carries. -/
theorem evaluation_filter_spec (isRepoEligible : String → Bool)
    (job : PullRequestEvent) :
    ((isRepoEligible job.repository.full_name = false ∨
      job.pull_request.state ≠ PullRequestState.opened ∨
      (job.action ≠ PullRequestAction.opened ∧
        job.action ≠ PullRequestAction.synchronize ∧
        job.action ≠ PullRequestAction.reopened ∧
        (job.action = PullRequestAction.edited →
          ∀ ch, job.changes = some ch → ch.base = none))) →
      evaluationFilterConsumer isRepoEligible job = [WorkerAction.ack]) ∧
    ((isRepoEligible job.repository.full_name = true ∧
      job.pull_request.state = PullRequestState.opened ∧
      (job.action = PullRequestAction.opened ∨
        job.action = PullRequestAction.synchronize ∨
        job.action = PullRequestAction.reopened ∨
        (job.action = PullRequestAction.edited ∧
          ∃ ch bc, job.changes = some ch ∧ ch.base = some bc))) →
      evaluationFilterConsumer isRepoEligible job =
        [publishSerdeAction none (some "mass-rebuild-check-jobs")
          (toEvaluationJob job), WorkerAction.ack]) := by
  constructor
  · rintro (helig | hstate | ⟨hop, hsync, hreop, hch⟩)
    · unfold evaluationFilterConsumer
      rw [if_pos]
      simp [helig]
    · unfold evaluationFilterConsumer
      by_cases helig : isRepoEligible job.repository.full_name
      · rw [if_neg (by simp [helig]), if_pos hstate]
      · rw [if_pos (by simp [helig])]
    · unfold evaluationFilterConsumer
      by_cases helig : isRepoEligible job.repository.full_name
      · by_cases hstate : job.pull_request.state = PullRequestState.opened
        · rw [if_neg (by simp [helig]), if_neg (by simp [hstate])]
          rw [if_pos]
          cases hact : job.action with
          | opened => exact absurd hact hop
          | synchronize => exact absurd hact hsync
          | reopened => exact absurd hact hreop
          | unknown => simp
          | edited =>
            cases hchs : job.changes with
            | none => simp
            | some ch =>
              have := hch hact ch hchs
              simp [this]
        · rw [if_neg (by simp [helig]), if_pos (by simp [hstate])]
      · rw [if_pos (by simp [helig])]
  · rintro ⟨helig, hstate, hact⟩
    unfold evaluationFilterConsumer
    rw [if_neg (by simp [helig]), if_neg (by simp [hstate])]
    rw [if_neg]
    simp only [not_not]
    rcases hact with h | h | h | ⟨h, ch, bc, hch, hbase⟩ <;> rw [h]
    rw [hch]
    simp [hbase]

/-- C6 witness: on an eligible open PR, `Edited` with `changes = none`
acks without publishing; an `Unknown` action acks even when
`changes.base` is present; and `Edited` with `changes.base` present
publishes the evaluation job and acks. -/
theorem evaluation_filter_spec_witness :
    evaluationFilterConsumer (fun r => r = "nixos/nixpkgs")
        ⟨PullRequestAction.edited, 1,
         ⟨⟨"NixOS"⟩, "nixpkgs", "nixos/nixpkgs", "c"⟩,
         ⟨PullRequestState.opened, ⟨"master", "b"⟩, ⟨"feat", "h"⟩⟩, none⟩
      = [WorkerAction.ack] ∧
    evaluationFilterConsumer (fun r => r = "nixos/nixpkgs")
        ⟨PullRequestAction.unknown, 2,
         ⟨⟨"NixOS"⟩, "nixpkgs", "nixos/nixpkgs", "c"⟩,
         ⟨PullRequestState.opened, ⟨"master", "b"⟩, ⟨"feat", "h"⟩⟩,
         some ⟨some ⟨⟨"master"⟩, ⟨"b0"⟩⟩⟩⟩
      = [WorkerAction.ack] ∧
    evaluationFilterConsumer (fun r => r = "nixos/nixpkgs")
        ⟨PullRequestAction.edited, 1,
         ⟨⟨"NixOS"⟩, "nixpkgs", "nixos/nixpkgs", "c"⟩,
         ⟨PullRequestState.opened, ⟨"staging", "b"⟩, ⟨"feat", "h"⟩⟩,
         some ⟨some ⟨⟨"master"⟩, ⟨"b0"⟩⟩⟩⟩
      = [publishSerdeAction none (some "mass-rebuild-check-jobs")
          ⟨⟨"NixOS", "nixpkgs", "nixos/nixpkgs", "c"⟩, ⟨1, "h", some "staging"⟩⟩,
         WorkerAction.ack] :=
  ⟨(evaluation_filter_spec (fun r => r = "nixos/nixpkgs")
      ⟨PullRequestAction.edited, 1, ⟨⟨"NixOS"⟩, "nixpkgs", "nixos/nixpkgs", "c"⟩,
       ⟨PullRequestState.opened, ⟨"master", "b"⟩, ⟨"feat", "h"⟩⟩, none⟩).1
      (Or.inr (Or.inr ⟨by decide, by decide, by decide,
        fun _ ch hch => Option.noConfusion hch⟩)),
   (evaluation_filter_spec (fun r => r = "nixos/nixpkgs")
      ⟨PullRequestAction.unknown, 2, ⟨⟨"NixOS"⟩, "nixpkgs", "nixos/nixpkgs", "c"⟩,
       ⟨PullRequestState.opened, ⟨"master", "b"⟩, ⟨"feat", "h"⟩⟩,
       some ⟨some ⟨⟨"master"⟩, ⟨"b0"⟩⟩⟩⟩).1
      (Or.inr (Or.inr ⟨by decide, by decide, by decide,
        fun hed => PullRequestAction.noConfusion hed⟩)),
   (evaluation_filter_spec (fun r => r = "nixos/nixpkgs")
      ⟨PullRequestAction.edited, 1, ⟨⟨"NixOS"⟩, "nixpkgs", "nixos/nixpkgs", "c"⟩,
       ⟨PullRequestState.opened, ⟨"staging", "b"⟩, ⟨"feat", "h"⟩⟩,
       some ⟨some ⟨⟨"master"⟩, ⟨"b0"⟩⟩⟩⟩).2
      ⟨by decide, rfl, Or.inr (Or.inr (Or.inr ⟨rfl,
        ⟨some ⟨⟨"master"⟩, ⟨"b0"⟩⟩⟩, ⟨⟨"master"⟩, ⟨"b0"⟩⟩, rfl, rfl⟩))⟩⟩

/-! ## `github-webhook-receiver.rs` `setup_amqp` — exchange and bindings -/

/-- `easyamqp::ExchangeType` (the variants used here). -/
inductive ExchangeType
  | topic
  | fanout
  | direct
deriving DecidableEq, Repr

/-- `easyamqp::ExchangeConfig`. -/
structure ExchangeConfig where
  exchange : String
  exchange_type : ExchangeType
  passive : Bool
  durable : Bool
  auto_delete : Bool
  no_wait : Bool
  internal : Bool
deriving DecidableEq, Repr

/-- `easyamqp::QueueConfig`. -/
structure QueueConfig where
  queue : String
  passive : Bool
  durable : Bool
  exclusive : Bool
  auto_delete : Bool
  no_wait : Bool
deriving DecidableEq, Repr

/-- `easyamqp::BindQueueConfig`. -/
structure BindQueueConfig where
  queue : String
  exchange : String
  routing_key : Option String
  no_wait : Bool
deriving DecidableEq, Repr

/-- One AMQP channel operation issued by `setup_amqp`. -/
inductive AmqpOp
  | declareExchange (cfg : ExchangeConfig)
  | declareQueue (cfg : QueueConfig)
  | bindQueue (cfg : BindQueueConfig)
deriving DecidableEq, Repr

/-- `setup_amqp` (`github-webhook-receiver.rs` lines 27–86): the exact
sequence of declarations and bindings the receiver performs. -/
def setupAmqp : List AmqpOp :=
  [AmqpOp.declareExchange
      ⟨"github-events", ExchangeType.topic, false, true, false, false, false⟩,
   AmqpOp.declareQueue ⟨"build-inputs", false, true, false, false, false⟩,
   AmqpOp.bindQueue
      ⟨"build-inputs", "github-events", some "issue_comment.*", false⟩,
   AmqpOp.declareQueue ⟨"github-events-unknown", false, true, false, false, false⟩,
   AmqpOp.bindQueue
      ⟨"github-events-unknown", "github-events", some "unknown.*", false⟩,
   AmqpOp.declareQueue
      ⟨"mass-rebuild-check-inputs", false, true, false, false, false⟩,
   AmqpOp.bindQueue
      ⟨"mass-rebuild-check-inputs", "github-events",
       some "pull_request.nixos/nixpkgs", false⟩]

/-- The bindings `setup_amqp` issues for a given queue name. -/
def bindingsFor (queue : String) : List BindQueueConfig :=
  setupAmqp.filterMap (fun op =>
    match op with
    | AmqpOp.bindQueue cfg => if cfg.queue = queue then some cfg else none
    | _ => none)

/-- C7 (amended): `setup_amqp` declares `github-events` as a durable
topic exchange and binds the durable queue `mass-rebuild-check-inputs`
to it with the literal routing key `pull_request.nixos/nixpkgs` — so
only `pull_request` events of the `nixos/nixpkgs` repository reach the
evaluation filter's input queue, not every repository under the `nixos`
owner. -/
theorem mass_rebuild_check_inputs_binding :
    AmqpOp.declareExchange
        ⟨"github-events", ExchangeType.topic, false, true, false, false, false⟩
      ∈ setupAmqp ∧
    AmqpOp.declareQueue ⟨"mass-rebuild-check-inputs", false, true, false, false, false⟩
      ∈ setupAmqp ∧
    bindingsFor "mass-rebuild-check-inputs" =
      [⟨"mass-rebuild-check-inputs", "github-events",
        some "pull_request.nixos/nixpkgs", false⟩] := by
  refine ⟨?_, ?_, ?_⟩ <;> decide

/-- C7 counterexample: the binding the claim asserts (routing key
`pull_request.nixos/*`) is not issued by `setup_amqp`; the binding that
is issued carries the key `pull_request.nixos/nixpkgs`, which differs
from it. -/
theorem mass_rebuild_check_inputs_binding_counterexample :
    AmqpOp.bindQueue
        ⟨"mass-rebuild-check-inputs", "github-events",
         some "pull_request.nixos/*", false⟩ ∉ setupAmqp ∧
    (bindingsFor "mass-rebuild-check-inputs").map BindQueueConfig.routing_key
      = [some "pull_request.nixos/nixpkgs"] ∧
    (some "pull_request.nixos/nixpkgs" : Option String)
      ≠ some "pull_request.nixos/*" := by
  refine ⟨?_, ?_, ?_⟩ <;> decide

/-! ## `src/ofborg/src/tagger.rs` — maintainer PR tagging

`Maintainer` (`maintainers.rs` lines 13–19) wraps a `String`; its
`From<&str>` constructor ASCII-lowercases the name, while values
deserialized from the maintainer evaluation keep their original casing.
`MaintainersByPackage` is a map from package to the set of its
maintainers; it is modelled as an association list of
(package, maintainer list). -/

/-- `impl From<&str> for Maintainer` (`maintainers.rs` lines 15–19):
wraps `name.to_ascii_lowercase()`. -/
def maintainerFrom (name : String) : String :=
  asciiLower name

/-- `MaintainerPrTagger::record_maintainer` (`tagger.rs` lines 71–92),
returning the `selected` labels starting from a fresh tagger: the label
is selected when the map is non-empty and every package's maintainer
set contains `Maintainer::from(pr_submitter)` — i.e. the submitter's
ASCII-lowercased login compared verbatim against the stored names. -/
def recordMaintainer (prSubmitter : String)
    (identifiedMaintainers : List (String × List String)) : List String :=
  let submitter := maintainerFrom prSubmitter
  if identifiedMaintainers.isEmpty then []
  else if identifiedMaintainers.all (fun p => decide (submitter ∈ p.2)) then
    ["11.by: package-maintainer"]
  else []

/-- C8 (amended): `record_maintainer` selects `11.by: package-maintainer`
iff the impacted-maintainers map is non-empty and every package's
maintainer set contains the ASCII-lowercased submitter login *verbatim*
— only the submitter side of the comparison is lowercased; stored
maintainer names keep their casing. -/
theorem record_maintainer_spec (prSubmitter : String)
    (m : List (String × List String)) :
    (recordMaintainer prSubmitter m = ["11.by: package-maintainer"] ↔
      m ≠ [] ∧ ∀ p ∈ m, asciiLower prSubmitter ∈ p.2) ∧
    (recordMaintainer prSubmitter m = ["11.by: package-maintainer"] ∨
      recordMaintainer prSubmitter m = []) := by
  unfold recordMaintainer maintainerFrom
  by_cases hempty : m.isEmpty
  · have hm : m = [] := List.isEmpty_iff.mp hempty
    subst hm
    simp
  · have hm : m ≠ [] := fun h => hempty (by simp [h])
    rw [if_neg (by simpa using hempty)]
    by_cases hall : m.all (fun p => decide (asciiLower prSubmitter ∈ p.2))
    · rw [if_pos hall]
      rw [List.all_eq_true] at hall
      constructor
      · refine ⟨fun _ => ⟨hm, fun p hp => ?_⟩, fun _ => rfl⟩
        exact of_decide_eq_true (hall p hp)
      · exact Or.inl rfl
    · rw [if_neg hall]
      constructor
      · constructor
        · intro h
          exact absurd h (by simp)
        · rintro ⟨_, hlisted⟩
          exfalso
          apply hall
          rw [List.all_eq_true]
          intro p hp
          exact decide_eq_true (hlisted p hp)
      · exact Or.inr rfl

/-- C8 counterexample: submitter `alice`, map `{pkg ↦ {Alice}}`. Under a
comparison that lowercases both sides the map is non-empty and every
package lists the submitter, yet no label is selected, because the
stored name `Alice` is compared verbatim. -/
theorem record_maintainer_counterexample :
    recordMaintainer "alice" [("pkg", ["Alice"])] = [] ∧
    ([("pkg", ["Alice"])] : List (String × List String)) ≠ [] ∧
    asciiLower "Alice" = asciiLower "alice" := by
  refine ⟨?_, by decide, ?_⟩ <;> decide

/-! ## `OneEval::update_status` — description truncation

`evaluate.rs` lines 156–164: if `description.len() >= 140` (Rust
`String::len` counts UTF-8 bytes) the description is replaced by
`description.chars().take(140).collect()` (the first 140 code points). -/

/-- Rust `String::len`: the number of UTF-8 bytes, i.e. the sum of the
UTF-8 encoded sizes of the characters. -/
def byteLength (s : String) : Nat :=
  (s.data.map Char.utf8Size).sum

/-- The truncation `OneEval::update_status` applies to the description
(`evaluate.rs` lines 156–164). -/
def truncateDescription (description : String) : String :=
  if byteLength description ≥ 140 then ⟨description.data.take 140⟩
  else description

theorem length_le_byteLength (s : String) : s.data.length ≤ byteLength s := by
  unfold byteLength
  induction s.data with
  | nil => simp
  | cons c cs ih =>
    simp only [List.length_cons, List.map_cons, List.sum_cons]
    have := Char.utf8Size_pos c
    omega

/-- C9: the description actually written is always the first 140 code
points of the input — hence contains at most 140 code points — and any
description of at most 140 code points is written unchanged. -/
theorem truncate_description_spec (d : String) :
    (truncateDescription d).data = d.data.take 140 ∧
    (truncateDescription d).data.length ≤ 140 ∧
    (d.data.length ≤ 140 → truncateDescription d = d) := by
  have hdata : (truncateDescription d).data = d.data.take 140 := by
    unfold truncateDescription
    by_cases h : byteLength d ≥ 140
    · rw [if_pos h]
    · rw [if_neg h]
      have hchars : d.data.length ≤ byteLength d := length_le_byteLength d
      exact (List.take_of_length_le (by omega)).symm
  refine ⟨hdata, ?_, ?_⟩
  · rw [hdata]
    exact List.length_take_le 140 d.data
  · intro hle
    apply String.ext
    rw [hdata]
    exact List.take_of_length_le hle

/-- C9 witness: the short description `Beginning Evaluations` (at most
140 code points) is written unchanged. -/
theorem truncate_description_spec_witness :
    ("Beginning Evaluations" : String).data.length ≤ 140 ∧
    truncateDescription "Beginning Evaluations" = "Beginning Evaluations" :=
  ⟨by decide, (truncate_description_spec "Beginning Evaluations").2.2 (by decide)⟩

/-! ## `src/ofborg/src/bin/logapi.rs` — GET handler path resolution

Lines 46–62: the handler takes the URI sub-path after `/logs/`, joins it
onto `cfg.logs_path` (`[&cfg.logs_path, &reqd].iter().collect()`),
canonicalizes the joined path, and — without any check that the result
still lies below `logs_path` — lists that directory and serves its
entries. Paths are modelled as component lists; `fs::canonicalize` is
modelled lexically: empty and `.` components are dropped and `..` pops
the last accumulated component (on an existing, symlink-free tree this
is what canonicalization does to the path string). -/

/-- Lexical path canonicalization, processing components left to right
onto an accumulator. -/
def canonAux : List String → List String → List String
  | acc, [] => acc
  | acc, c :: rest =>
    if c = "" ∨ c = "." then canonAux acc rest
    else if c = ".." then canonAux acc.dropLast rest
    else canonAux (acc ++ [c]) rest

/-- The directory the GET handler lists and serves for request sub-path
`reqd` (`logapi.rs` lines 52–58): canonicalize(`logs_path` joined with
`reqd`), with no containment check. -/
def servedDir (logsPath reqd : List String) : List String :=
  canonAux [] (logsPath ++ reqd)

/-- `sub` lies inside the directory `root`: `root` is a path-component
prefix of `sub`. -/
def isInside (sub root : List String) : Prop :=
  root <+: sub

theorem canonAux_cons (acc : List String) (c : String) (rest : List String) :
    canonAux acc (c :: rest) =
      if c = "" ∨ c = "." then canonAux acc rest
      else if c = ".." then canonAux acc.dropLast rest
      else canonAux (acc ++ [c]) rest := rfl

theorem canonAux_append (acc : List String) :
    ∀ (xs ys : List String), canonAux acc (xs ++ ys) = canonAux (canonAux acc xs) ys := by
  intro xs
  induction xs generalizing acc with
  | nil => intro ys; rfl
  | cons c rest ih =>
    intro ys
    rw [List.cons_append, canonAux_cons, canonAux_cons]
    by_cases h1 : c = "" ∨ c = "."
    · rw [if_pos h1, if_pos h1]
      exact ih acc ys
    · by_cases h2 : c = ".."
      · rw [if_neg h1, if_neg h1, if_pos h2, if_pos h2]
        exact ih acc.dropLast ys
      · rw [if_neg h1, if_neg h1, if_neg h2, if_neg h2]
        exact ih (acc ++ [c]) ys

theorem canonAux_replicate_dotdot :
    ∀ (n : Nat) (acc : List String), acc.length = n →
      canonAux acc (List.replicate n "..") = [] := by
  intro n
  induction n with
  | zero =>
    intro acc h
    rw [List.length_eq_zero] at h
    subst h
    rfl
  | succ n ih =>
    intro acc h
    rw [List.replicate_succ, canonAux_cons, if_neg (by simp), if_pos rfl]
    apply ih
    rw [List.length_dropLast, h]
    omega

/-- C10: the handler never re-checks containment after canonicalizing,
so whenever the configured `logs_path` is not the filesystem root there
is a request sub-path containing `..` components for which the directory
listed and served lies outside `logs_path`. -/
theorem logapi_path_traversal (logsPath : List String)
    (hroot : canonAux [] logsPath ≠ []) :
    ∃ reqd : List String, ".." ∈ reqd ∧
      ¬ isInside (servedDir logsPath reqd) (canonAux [] logsPath) := by
  refine ⟨List.replicate (canonAux [] logsPath).length "..", ?_, ?_⟩
  · apply List.mem_replicate.mpr
    refine ⟨?_, rfl⟩
    intro hlen
    exact hroot (List.length_eq_zero.mp hlen)
  · have hserved : servedDir logsPath
        (List.replicate (canonAux [] logsPath).length "..") = [] := by
      unfold servedDir
      rw [canonAux_append]
      exact canonAux_replicate_dotdot _ _ rfl
    rw [hserved]
    unfold isInside
    rw [List.prefix_nil]
    exact hroot

/-- C10 witness: with `logs_path = /var/log/ofborg` there is a `..`-laden
request whose served directory escapes `logs_path`. -/
theorem logapi_path_traversal_witness :
    canonAux [] ["var", "log", "ofborg"] ≠ [] ∧
    (∃ reqd : List String, ".." ∈ reqd ∧
      ¬ isInside (servedDir ["var", "log", "ofborg"] reqd)
          (canonAux [] ["var", "log", "ofborg"])) :=
  ⟨by decide, logapi_path_traversal ["var", "log", "ofborg"] (by decide)⟩

end Ofborg
